import Mathlib

/-!
Verification of the ROUGE scoring module (`rouge/rouge.py`).

The Python module computes ROUGE-N, ROUGE-L and ROUGE-W text-similarity
scores over pre-tokenized sentences.  We embed each function shallowly:

* tokens are an arbitrary type `α` with decidable equality;
* a `collections.Counter` over n-grams is represented by the list of n-gram
  occurrences itself, multiplicities being read off with `List.count`;
* Python floats are idealized as `ℚ` for the ROUGE-N/ROUGE-L routines (whose
  arithmetic is ratios of integers) and as `ℝ` for the ROUGE-W routines
  (whose arithmetic uses `math.pow` with a real exponent);
* a Python `raise ValueError(msg)` is modelled as `Except.error msg`;
* the DP dictionaries `len_table`/`trace_table`/`weighted_len` keyed by
  `(i, j)` are modelled as functions of the two indices, built row by row
  exactly as the `for i ... for j ...` loops fill them.
-/

namespace Rouge

variable {α : Type} [DecidableEq α]

/-- `_num_ngrams(words, n)` returns `max(len(words) - n + 1, 0)`; truncated
subtraction on `ℕ` yields the same value. -/
def num_ngrams (words : List α) (n : ℕ) : ℕ :=
  words.length + 1 - n

/-- `_get_ngram(words, n)`: the n-grams `words[i:i+n]` for
`i in range(_num_ngrams(words, n))`, in order. -/
def get_ngram (words : List α) (n : ℕ) : List (List α) :=
  (List.range (num_ngrams words n)).map fun i => (words.drop i).take n

/-- `_count_ngrams(words, n)` collects the n-grams into a `Counter`; the
counter is represented by the occurrence list, queried via `List.count`. -/
def count_ngrams (words : List α) (n : ℕ) : List (List α) :=
  get_ngram words n

/-- `_clipped_ngram_count`: `sum((summary & reference).values())`, i.e. the sum
over the distinct n-grams of the summary counter of the minimum of the two
counts (n-grams absent from the reference contribute `min c 0 = 0`). -/
def clipped_ngram_count (summary_ngrams reference_ngrams : List (List α)) : ℕ :=
  ∑ g ∈ summary_ngrams.toFinset,
    min (summary_ngrams.count g) (reference_ngrams.count g)

/-- `_divide_or_zero(numerator, denominator)`. -/
def divide_or_zero (numerator denominator : ℚ) : ℚ :=
  if denominator = 0 then 0 else numerator / denominator

/-- `_compute_f1_measure(recall, precision, alpha)`: `alpha` defaults to `0.5`,
must lie in `[0, 1]` (otherwise `ValueError`), and the score is
`divide_or_zero(precision * recall, (1 - alpha) * precision + alpha * recall)`. -/
def compute_f1_measure (recl precis : ℚ) (alpha : Option ℚ) : Except String ℚ :=
  let a := alpha.getD (1 / 2)
  if 0 ≤ a ∧ a ≤ 1 then
    .ok (divide_or_zero (precis * recl) ((1 - a) * precis + a * recl))
  else
    .error "alpha must be between [0, 1]"

/-- `_f1_measure(numerator, r_denominator, p_denominator, alpha)`. -/
def f1_measure (numerator r_denominator p_denominator : ℚ) (alpha : Option ℚ) :
    Except String (ℚ × ℚ × ℚ) :=
  let recl := divide_or_zero numerator r_denominator
  let precis := divide_or_zero numerator p_denominator
  (compute_f1_measure recl precis alpha).map fun f1 => (recl, precis, f1)

/-- `rouge_n_sentence_level(summary_sentence, reference_sentence, n, alpha)`. -/
def rouge_n_sentence_level (summary_sentence reference_sentence : List α) (n : ℕ)
    (alpha : Option ℚ) : Except String (ℚ × ℚ × ℚ) :=
  let summary_ngrams := count_ngrams summary_sentence n
  let reference_ngrams := count_ngrams reference_sentence n
  let total_matches := clipped_ngram_count summary_ngrams reference_ngrams
  f1_measure (total_matches : ℚ) (num_ngrams reference_sentence n : ℚ)
    (num_ngrams summary_sentence n : ℚ) alpha

/-- `_flatten_sentences(sentences)`: concatenation in order. -/
def flatten_sentences (sentences : List (List α)) : List α :=
  sentences.flatten

/-- `rouge_n_summary_level(summary_sentences, reference_sentences, n, alpha)`:
flatten both texts, then delegate to `rouge_n_sentence_level`. -/
def rouge_n_summary_level (summary_sentences reference_sentences : List (List α))
    (n : ℕ) (alpha : Option ℚ) : Except String (ℚ × ℚ × ℚ) :=
  rouge_n_sentence_level (flatten_sentences summary_sentences)
    (flatten_sentences reference_sentences) n alpha

/-- Row `i+1` of the `len_table` filled by `_lcs_length`'s inner loop:
`prev` is row `i`, and cell `j+1` compares `x[i]` with `y[j]`
(`x[i - 1] == y[j - 1]` in the 1-based Python indices). -/
def lcsRow (x y : List α) (prev : ℕ → ℕ) (i : ℕ) : ℕ → ℕ
  | 0 => 0
  | j + 1 =>
    if x.get? i = y.get? j then prev j + 1
    else max (prev (j + 1)) (lcsRow x y prev i j)

/-- The full `len_table` of `_lcs_length` (also the `len_table` of
`_lcs_elements`, which fills it with the identical transitions):
`lcsTable x y i j = len_table[i, j]`. -/
def lcsTable (x y : List α) : ℕ → ℕ → ℕ
  | 0 => fun _ => 0
  | i + 1 => lcsRow x y (lcsTable x y i) i

/-- `_lcs_length(x, y) = len_table[len(x), len(y)]`. -/
def lcs_length (x y : List α) : ℕ :=
  lcsTable x y x.length y.length

/-- `rouge_l_sentence_level(summary_sentence, reference_sentence, alpha)`. -/
def rouge_l_sentence_level (summary_sentence reference_sentence : List α)
    (alpha : Option ℚ) : Except String (ℚ × ℚ × ℚ) :=
  f1_measure (lcs_length summary_sentence reference_sentence : ℚ)
    (reference_sentence.length : ℚ) (summary_sentence.length : ℚ) alpha

theorem lcsTable_zero_left (x y : List α) (j : ℕ) : lcsTable x y 0 j = 0 := rfl

theorem lcsTable_succ_zero (x y : List α) (i : ℕ) : lcsTable x y (i + 1) 0 = 0 := rfl

theorem lcsTable_succ_succ (x y : List α) (i j : ℕ) :
    lcsTable x y (i + 1) (j + 1) =
      if x.get? i = y.get? j then lcsTable x y i j + 1
      else max (lcsTable x y i (j + 1)) (lcsTable x y (i + 1) j) := rfl

/-- The DP value is bounded by both prefix lengths. -/
theorem lcsTable_le_min (x y : List α) :
    ∀ k i j, i + j ≤ k → lcsTable x y i j ≤ min i j := by
  intro k
  induction k with
  | zero =>
    intro i j h
    have hi : i = 0 := by omega
    subst hi
    have e : lcsTable x y 0 j = 0 := rfl
    omega
  | succ k ih =>
    intro i j h
    match i, j with
    | 0, j =>
      have e : lcsTable x y 0 j = 0 := rfl
      omega
    | i + 1, 0 =>
      have e : lcsTable x y (i + 1) 0 = 0 := rfl
      omega
    | i + 1, j + 1 =>
      rw [lcsTable_succ_succ]
      have h1 := ih i j (by omega)
      have h2 := ih i (j + 1) (by omega)
      have h3 := ih (i + 1) j (by omega)
      split_ifs <;> omega

/-- The DP table is symmetric in its two sequences. -/
theorem lcsTable_symm (x y : List α) :
    ∀ k i j, i + j ≤ k → lcsTable x y i j = lcsTable y x j i := by
  intro k
  induction k with
  | zero =>
    intro i j h
    have hi : i = 0 := by omega
    have hj : j = 0 := by omega
    subst hi; subst hj
    rfl
  | succ k ih =>
    intro i j h
    match i, j with
    | 0, j =>
      cases j with
      | zero => rfl
      | succ j => rfl
    | i + 1, 0 => rfl
    | i + 1, j + 1 =>
      rw [lcsTable_succ_succ, lcsTable_succ_succ]
      by_cases hxy : x.get? i = y.get? j
      · rw [if_pos hxy, if_pos hxy.symm, ih i j (by omega)]
      · rw [if_neg hxy, if_neg (fun hc => hxy hc.symm),
          ih i (j + 1) (by omega), ih (i + 1) j (by omega)]
        exact Nat.max_comm _ _

/-- On the diagonal of `lcsTable x x` every cell is a match, so the value is
the index itself. -/
theorem lcsTable_diag (x : List α) : ∀ i, lcsTable x x i i = i := by
  intro i
  induction i with
  | zero => rfl
  | succ i ih => rw [lcsTable_succ_succ, if_pos rfl, ih]

/-- The `trace_table` of `_lcs_elements`: no entry is stored for the border
cells `i = 0` or `j = 0`; an interior cell stores `'d'` on a token match,
`'u'` when the up-neighbour value is strictly larger than the left-neighbour
value, and `'l'` otherwise.  The stored `len_table` values coincide with
`lcsTable` (the transitions are identical). -/
def traceTable (x y : List α) : ℕ → ℕ → Option Char
  | 0, _ => none
  | _ + 1, 0 => none
  | i + 1, j + 1 =>
    if x.get? i = y.get? j then some 'd'
    else if lcsTable x y i (j + 1) > lcsTable x y (i + 1) j then some 'u'
    else some 'l'

/-- The backtrace loop of `_lcs_elements`:

    while i != 0 and j != 0:
        'd' -> record (i-1, j-1), move diagonally
        'u' -> i -= 1
        else -> j -= 1

Each iteration decreases `i + j`, so running it with fuel `i + j` reproduces
the loop exactly; `fuel = 0` can only be reached together with `i = 0` or
`j = 0`. -/
def lcsBacktrack (x y : List α) : ℕ → ℕ → ℕ → List (ℕ × ℕ)
  | 0, _, _ => []
  | _ + 1, 0, _ => []
  | _ + 1, _ + 1, 0 => []
  | fuel + 1, i + 1, j + 1 =>
    match traceTable x y (i + 1) (j + 1) with
    | some 'd' => (i, j) :: lcsBacktrack x y fuel i j
    | some 'u' => lcsBacktrack x y fuel i (j + 1)
    | _ => lcsBacktrack x y fuel (i + 1) j

/-- `_lcs_elements(x, y)`: the set of index pairs recorded by the backtrace,
starting from `(len(x), len(y))`.  The pairs are pairwise distinct, so the
Python `set` is faithfully represented by this list. -/
def lcs_elements (x y : List α) : List (ℕ × ℕ) :=
  lcsBacktrack x y (x.length + y.length) x.length y.length

/-- `_make_lcs_union(summary_sentences, reference_sentence)`: the union over
all summary sentences of the reference-side indices of `_lcs_elements`.  The
Python function returns a set of indices `< len(reference_sentence)`; we
enumerate that set in increasing index order (the order in which the
summary-level loop consumes it). -/
def make_lcs_union (summary_sentences : List (List α)) (reference_sentence : List α) :
    List ℕ :=
  (List.range reference_sentence.length).filter fun j =>
    summary_sentences.any fun s => (lcs_elements s reference_sentence).any fun p => p.2 = j

/-- The mutable state of `rouge_l_summary_level`'s counting loop: the two
unigram `Counter`s (a Python `Counter` maps each unigram, i.e. 1-tuple of a
token, to an integer count — we index directly by the token) and the running
`total_lcs_words`.  Counts are integers, as in Python, so that their
non-negativity is a theorem rather than a typing artifact. -/
structure LcsCountState (α : Type) where
  summary_unigrams : α → ℤ
  reference_unigrams : α → ℤ
  total_lcs_words : ℕ

/-- The initial state of `rouge_l_summary_level`: both counters are built by
`_flatten_and_count_ngrams(sentences, 1)`, whose 1-gram counts are exactly the
token counts of the flattened text. -/
def initialLcsCountState (summary_sentences reference_sentences : List (List α)) :
    LcsCountState α where
  summary_unigrams := fun t => ((flatten_sentences summary_sentences).count t : ℤ)
  reference_unigrams := fun t => ((flatten_sentences reference_sentences).count t : ℤ)
  total_lcs_words := 0

/-- One iteration of the inner loop of `rouge_l_summary_level`, at reference
sentence `w.1` and union index `w.2`: look up `unigram = (reference[word],)`
and, if both counters are still positive for it, decrement both and count the
word.  (The Python guard also tests `unigram in counter`; with counts read as
total functions that test is subsumed by the `> 0` tests, since an absent key
reads as `0`.)  An out-of-range index never occurs — `_make_lcs_union` only
yields indices below the sentence length — and leaves the state unchanged. -/
def lcsCountStep (st : LcsCountState α) (w : List α × ℕ) : LcsCountState α :=
  match w.1.get? w.2 with
  | none => st
  | some u =>
    if 0 < st.summary_unigrams u ∧ 0 < st.reference_unigrams u then
      { summary_unigrams := fun t => if t = u then st.summary_unigrams t - 1 else st.summary_unigrams t
        reference_unigrams := fun t => if t = u then st.reference_unigrams t - 1 else st.reference_unigrams t
        total_lcs_words := st.total_lcs_words + 1 }
    else st

/-- The whole double loop of `rouge_l_summary_level` as a single work list:
for each reference sentence, in order, each index of its LCS union. -/
def lcsWorkList (summary_sentences reference_sentences : List (List α)) :
    List (List α × ℕ) :=
  reference_sentences.flatMap fun r => (make_lcs_union summary_sentences r).map fun j => (r, j)

/-- `rouge_l_summary_level(summary_sentences, reference_sentences, alpha)`. -/
def rouge_l_summary_level (summary_sentences reference_sentences : List (List α))
    (alpha : Option ℚ) : Except String (ℚ × ℚ × ℚ) :=
  let final := (lcsWorkList summary_sentences reference_sentences).foldl lcsCountStep
    (initialLcsCountState summary_sentences reference_sentences)
  let r_denominator := (reference_sentences.map List.length).sum
  let p_denominator := (summary_sentences.map List.length).sum
  f1_measure (final.total_lcs_words : ℚ) (r_denominator : ℚ) (p_denominator : ℚ) alpha

/-- `DEFAULT_WEIGHT_FACTOR = 1.2`. -/
noncomputable def DEFAULT_WEIGHT_FACTOR : ℝ := 6 / 5

open Classical in
/-- `_divide_or_zero` as used by the ROUGE-W routines, over `ℝ`. -/
noncomputable def divide_or_zero_real (numerator denominator : ℝ) : ℝ :=
  if denominator = 0 then 0 else numerator / denominator

open Classical in
/-- `_compute_f1_measure` as used by `rouge_w_sentence_level`, over `ℝ`. -/
noncomputable def compute_f1_measure_real (recl precis : ℝ) (alpha : Option ℝ) :
    Except String ℝ :=
  let a := alpha.getD (1 / 2)
  if 0 ≤ a ∧ a ≤ 1 then
    .ok (divide_or_zero_real (precis * recl) ((1 - a) * precis + a * recl))
  else
    .error "alpha must be between [0, 1]"

/-- The pure value computed by `_weight_fn(v, weight)` once its weight check
has passed: `math.pow(v, weight)` on a natural argument, i.e. the weight
function `w(k) = k ** weight` (real exponentiation). -/
noncomputable def wpow (w : ℝ) (k : ℕ) : ℝ := (k : ℝ) ^ w

open Classical in
/-- `_weight_fn(x, weight, inverse)`: `weight` defaults to
`DEFAULT_WEIGHT_FACTOR`, must be `> 1.0` (otherwise `ValueError`), is replaced
by `1 / weight` when `inverse`, and the result is `math.pow(x, weight)`. -/
noncomputable def weight_fn (x : ℝ) (weight : Option ℝ) (inverse : Bool) :
    Except String ℝ :=
  let w := weight.getD DEFAULT_WEIGHT_FACTOR
  if 1 < w then
    .ok (x ^ (if inverse then 1 / w else w))
  else
    .error "weight must be > 1.0"

/-- Row `i+1` of the paired `weighted_len`/`consecutive_match` tables of
`_lcs_length_with_weight` (first component `weighted_len`, second
`consecutive_match`), for an already-validated weight `w`.  On a match the
marginal `_weight_fn(k + 1) - _weight_fn(k)` is added to the diagonal value;
on a mismatch the weighted length is the max of the up/left neighbours and
the run length resets to `0`. -/
noncomputable def wlcsRow (x y : List α) (w : ℝ) (prev : ℕ → ℝ × ℕ) (i : ℕ) :
    ℕ → ℝ × ℕ
  | 0 => (0, 0)
  | j + 1 =>
    if x.get? i = y.get? j then
      ((prev j).1 + (wpow w ((prev j).2 + 1) - wpow w (prev j).2), (prev j).2 + 1)
    else
      (max (prev (j + 1)).1 (wlcsRow x y w prev i j).1, 0)

/-- The full pair of DP tables of `_lcs_length_with_weight`. -/
noncomputable def wlcsTable (x y : List α) (w : ℝ) : ℕ → ℕ → ℝ × ℕ
  | 0 => fun _ => (0, 0)
  | i + 1 => wlcsRow x y w (wlcsTable x y w i) i

/-- `_lcs_length_with_weight(x, y, weight) = weighted_len[len(x), len(y)]`,
for an already-validated weight. -/
noncomputable def lcs_length_with_weight (x y : List α) (w : ℝ) : ℝ :=
  (wlcsTable x y w x.length y.length).1

open Classical in
/-- `rouge_w_sentence_level(summary_sentence, reference_sentence, weight, alpha)`.

Every path through the Python function evaluates `_weight_fn` (inside the DP
on the first token match, or at the latest when `compute` normalizes the
recall), so an invalid weight always raises `ValueError('weight must be >
1.0')` before any score is produced; the model performs that validation
first.  With a valid weight,
`compute(n, d) = _weight_fn(_divide_or_zero(n, _weight_fn(d)), inverse=True)
= (n / d ** w) ** (1 / w)` with zero-safe division. -/
noncomputable def rouge_w_sentence_level (summary_sentence reference_sentence : List α)
    (weight alpha : Option ℝ) : Except String (ℝ × ℝ × ℝ) :=
  let w := weight.getD DEFAULT_WEIGHT_FACTOR
  if 1 < w then
    let numerator := lcs_length_with_weight summary_sentence reference_sentence w
    let compute := fun (d : ℕ) => divide_or_zero_real numerator (wpow w d) ^ (1 / w)
    let recl := compute reference_sentence.length
    let precis := compute summary_sentence.length
    (compute_f1_measure_real recl precis alpha).map fun f1 => (recl, precis, f1)
  else
    .error "weight must be > 1.0"

/-- `rouge_w_summary_level(summary_sentences, reference_sentences, weight, alpha)`
is an unimplemented stub — its entire body is `pass` — so it returns Python
`None` on every input, never raising and never producing a score triple. -/
def rouge_w_summary_level (summary_sentences reference_sentences : List (List α))
    (weight alpha : Option ℝ) : Option (ℝ × ℝ × ℝ) :=
  none

/-! ### Generic facts about the score combinator -/

/-- The routine raised an error (`ValueError` in Python). -/
def raises {σ : Type} (e : Except String σ) : Prop :=
  ∃ msg, e = .error msg

/-- Every component of a returned rational score triple lies in `[0, 1]`. -/
def triple_in_unit (e : Except String (ℚ × ℚ × ℚ)) : Prop :=
  ∀ recl precis f1, e = .ok (recl, precis, f1) →
    (0 ≤ recl ∧ recl ≤ 1) ∧ (0 ≤ precis ∧ precis ≤ 1) ∧ (0 ≤ f1 ∧ f1 ≤ 1)

/-- Every component of a returned real score triple lies in `[0, 1]`. -/
def triple_in_unit_real (e : Except String (ℝ × ℝ × ℝ)) : Prop :=
  ∀ recl precis f1, e = .ok (recl, precis, f1) →
    (0 ≤ recl ∧ recl ≤ 1) ∧ (0 ≤ precis ∧ precis ≤ 1) ∧ (0 ≤ f1 ∧ f1 ≤ 1)

theorem divide_or_zero_nonneg {n d : ℚ} (hn : 0 ≤ n) (hd : 0 ≤ d) :
    0 ≤ divide_or_zero n d := by
  unfold divide_or_zero
  split_ifs with h
  · exact le_refl 0
  · exact div_nonneg hn hd

theorem divide_or_zero_le_one {n d : ℚ} (hn : 0 ≤ n) (hnd : n ≤ d) :
    divide_or_zero n d ≤ 1 := by
  unfold divide_or_zero
  split_ifs with h
  · norm_num
  · exact (div_le_one (lt_of_le_of_ne (le_trans hn hnd) (Ne.symm h))).2 hnd

/-- The harmonic combination of two scores in `[0, 1]` with `alpha ∈ [0, 1]`
stays in `[0, 1]`. -/
theorem compute_f1_value_in_unit {r p a : ℚ} (hr0 : 0 ≤ r) (hr1 : r ≤ 1)
    (hp0 : 0 ≤ p) (hp1 : p ≤ 1) (ha0 : 0 ≤ a) (ha1 : a ≤ 1) :
    0 ≤ divide_or_zero (p * r) ((1 - a) * p + a * r) ∧
      divide_or_zero (p * r) ((1 - a) * p + a * r) ≤ 1 := by
  have key : p * r ≤ (1 - a) * p + a * r := by
    nlinarith [mul_nonneg (mul_nonneg (sub_nonneg.2 ha1) hp0) (sub_nonneg.2 hr1),
      mul_nonneg (mul_nonneg ha0 hr0) (sub_nonneg.2 hp1)]
  constructor
  · exact divide_or_zero_nonneg (by positivity) (by nlinarith)
  · exact divide_or_zero_le_one (by positivity) key

theorem compute_f1_measure_some_valid {a : ℚ} (recl precis : ℚ) (ha : 0 ≤ a ∧ a ≤ 1) :
    compute_f1_measure recl precis (some a) =
      .ok (divide_or_zero (precis * recl) ((1 - a) * precis + a * recl)) := by
  unfold compute_f1_measure
  simp [ha]

/-- `_f1_measure` on a valid alpha, a non-negative numerator and denominators
at least the numerator returns a triple of scores in `[0, 1]`. -/
theorem f1_measure_in_unit {num rden pden a : ℚ} (ha : 0 ≤ a ∧ a ≤ 1)
    (h0 : 0 ≤ num) (hr : num ≤ rden) (hp : num ≤ pden) :
    triple_in_unit (f1_measure num rden pden (some a)) := by
  intro recl precis f1 h
  rw [f1_measure, compute_f1_measure_some_valid _ _ ha] at h
  simp only [Except.map, Except.ok.injEq, Prod.mk.injEq] at h
  obtain ⟨h1, h2, h3⟩ := h
  subst h1; subst h2; subst h3
  refine ⟨⟨divide_or_zero_nonneg h0 (le_trans h0 hr), divide_or_zero_le_one h0 hr⟩,
    ⟨divide_or_zero_nonneg h0 (le_trans h0 hp), divide_or_zero_le_one h0 hp⟩, ?_⟩
  exact compute_f1_value_in_unit (divide_or_zero_nonneg h0 (le_trans h0 hr))
    (divide_or_zero_le_one h0 hr) (divide_or_zero_nonneg h0 (le_trans h0 hp))
    (divide_or_zero_le_one h0 hp) ha.1 ha.2

/-- `_f1_measure` raises exactly when the supplied alpha is invalid. -/
theorem f1_measure_raises_iff (num rden pden a : ℚ) :
    raises (f1_measure num rden pden (some a)) ↔ ¬ (0 ≤ a ∧ a ≤ 1) := by
  unfold raises f1_measure compute_f1_measure
  simp only [Option.getD_some]
  split_ifs with h
  · simp [Except.map, h]
  · simp [Except.map, h]

/-! ### Counting bounds for ROUGE-N -/

theorem list_toFinset_sum_count {β : Type} [DecidableEq β] [BEq β] [LawfulBEq β]
    (l : List β) : ∑ g ∈ l.toFinset, l.count g = l.length := by
  induction l with
  | nil => simp
  | cons a l ih =>
    have hcount : ∀ g : β, (a :: l).count g = l.count g + if g = a then 1 else 0 := by
      intro g
      simp only [List.count_cons, beq_iff_eq]
      by_cases hg : g = a
      · subst hg; simp
      · rw [if_neg (fun hc => hg hc.symm), if_neg hg]
    rw [List.toFinset_cons]
    by_cases ha : a ∈ l.toFinset
    · rw [Finset.insert_eq_self.2 ha, Finset.sum_congr rfl fun g _ => hcount g,
        Finset.sum_add_distrib, ih, Finset.sum_ite_eq' l.toFinset a fun _ => 1,
        if_pos ha, List.length_cons]
    · rw [Finset.sum_insert ha, Finset.sum_congr rfl fun g _ => hcount g,
        Finset.sum_add_distrib, ih, Finset.sum_ite_eq' l.toFinset a fun _ => 1,
        if_neg ha, hcount a, if_pos rfl,
        List.count_eq_zero.2 (fun hmem => ha (List.mem_toFinset.2 hmem)), List.length_cons]
      omega

/-- The clipped overlap never exceeds the total reference n-gram count. -/
theorem clipped_ngram_count_le_right (s r : List (List α)) :
    clipped_ngram_count s r ≤ r.length := by
  unfold clipped_ngram_count
  calc ∑ g ∈ s.toFinset, min (s.count g) (r.count g)
      ≤ ∑ g ∈ s.toFinset, r.count g :=
        Finset.sum_le_sum fun g _ => min_le_right _ _
    _ ≤ ∑ g ∈ s.toFinset ∪ r.toFinset, r.count g :=
        Finset.sum_le_sum_of_subset Finset.subset_union_left
    _ = ∑ g ∈ r.toFinset, r.count g := by
        refine (Finset.sum_subset Finset.subset_union_right fun g _ hg => ?_).symm
        exact List.count_eq_zero.2 fun hmem => hg (List.mem_toFinset.2 hmem)
    _ = r.length := list_toFinset_sum_count r

/-- The clipped overlap never exceeds the total summary n-gram count. -/
theorem clipped_ngram_count_le_left (s r : List (List α)) :
    clipped_ngram_count s r ≤ s.length := by
  unfold clipped_ngram_count
  calc ∑ g ∈ s.toFinset, min (s.count g) (r.count g)
      ≤ ∑ g ∈ s.toFinset, s.count g :=
        Finset.sum_le_sum fun g _ => min_le_left _ _
    _ = s.length := list_toFinset_sum_count s

theorem count_ngrams_length (words : List α) (n : ℕ) :
    (count_ngrams words n).length = num_ngrams words n := by
  unfold count_ngrams get_ngram
  simp

/-! ### The counting loop of summary-level ROUGE-L -/

theorem mem_of_count_cast_pos {l : List α} {u : α} (h : (0 : ℤ) < (l.count u : ℤ)) :
    u ∈ l := by
  by_contra hnot
  rw [List.count_eq_zero.2 hnot] at h
  simp at h

/-- Summing a pointwise update that subtracts one at a member of the index
set subtracts one from the sum. -/
theorem sum_if_sub_one {F : Finset α} {f : α → ℤ} {u : α} (hu : u ∈ F) :
    ∑ t ∈ F, (if t = u then f t - 1 else f t) = (∑ t ∈ F, f t) - 1 := by
  have h : ∀ t ∈ F, (if t = u then f t - 1 else f t) = f t - (if t = u then 1 else 0) := by
    intro t _
    split_ifs <;> simp
  rw [Finset.sum_congr rfl h, Finset.sum_sub_distrib,
    Finset.sum_ite_eq' F u fun _ => (1 : ℤ)]
  simp [hu]

/-- The loop invariant of `rouge_l_summary_level`'s counting loop: both
counters stay between `0` and their initial values pointwise, and each unit of
`total_lcs_words` is matched by exactly one decrement on each side, so that
`total + Σ counts` is conserved. -/
def LcsInv (S R : List (List α)) (st : LcsCountState α) : Prop :=
  (∀ t, 0 ≤ st.summary_unigrams t) ∧
  (∀ t, 0 ≤ st.reference_unigrams t) ∧
  (∀ t, st.summary_unigrams t ≤ ((flatten_sentences S).count t : ℤ)) ∧
  (∀ t, st.reference_unigrams t ≤ ((flatten_sentences R).count t : ℤ)) ∧
  (st.total_lcs_words : ℤ) +
      ∑ t ∈ (flatten_sentences S).toFinset, st.summary_unigrams t =
    ((flatten_sentences S).length : ℤ) ∧
  (st.total_lcs_words : ℤ) +
      ∑ t ∈ (flatten_sentences R).toFinset, st.reference_unigrams t =
    ((flatten_sentences R).length : ℤ)

theorem lcsInv_initial (S R : List (List α)) :
    LcsInv S R (initialLcsCountState S R) := by
  unfold LcsInv initialLcsCountState
  refine ⟨fun t => Int.natCast_nonneg _, fun t => Int.natCast_nonneg _,
    fun t => le_refl _, fun t => le_refl _, ?_, ?_⟩
  · rw [← Nat.cast_sum, list_toFinset_sum_count]
    simp
  · rw [← Nat.cast_sum, list_toFinset_sum_count]
    simp

theorem lcsInv_step (S R : List (List α)) (st : LcsCountState α) (w : List α × ℕ)
    (h : LcsInv S R st) : LcsInv S R (lcsCountStep st w) := by
  obtain ⟨hs0, hr0, hsle, hrle, hssum, hrsum⟩ := h
  unfold lcsCountStep
  cases hget : w.1.get? w.2 with
  | none => exact ⟨hs0, hr0, hsle, hrle, hssum, hrsum⟩
  | some u =>
    dsimp only
    by_cases hguard : 0 < st.summary_unigrams u ∧ 0 < st.reference_unigrams u
    · rw [if_pos hguard]
      have humemS : u ∈ (flatten_sentences S).toFinset :=
        List.mem_toFinset.2 (mem_of_count_cast_pos (lt_of_lt_of_le hguard.1 (hsle u)))
      have humemR : u ∈ (flatten_sentences R).toFinset :=
        List.mem_toFinset.2 (mem_of_count_cast_pos (lt_of_lt_of_le hguard.2 (hrle u)))
      refine ⟨?_, ?_, ?_, ?_, ?_, ?_⟩
      · intro t
        by_cases ht : t = u
        · subst ht; simp only [if_pos rfl]; omega
        · simpa [ht] using hs0 t
      · intro t
        by_cases ht : t = u
        · subst ht; simp only [if_pos rfl]; omega
        · simpa [ht] using hr0 t
      · intro t
        by_cases ht : t = u
        · subst ht; simp only [if_pos rfl]
          have := hsle t
          omega
        · simpa [ht] using hsle t
      · intro t
        by_cases ht : t = u
        · subst ht; simp only [if_pos rfl]
          have := hrle t
          omega
        · simpa [ht] using hrle t
      · dsimp only
        rw [sum_if_sub_one humemS]
        push_cast
        omega
      · dsimp only
        rw [sum_if_sub_one humemR]
        push_cast
        omega
    · rw [if_neg hguard]
      exact ⟨hs0, hr0, hsle, hrle, hssum, hrsum⟩

theorem lcsInv_foldl (S R : List (List α)) (l : List (List α × ℕ)) :
    ∀ st, LcsInv S R st → LcsInv S R (l.foldl lcsCountStep st) := by
  induction l with
  | nil => intro st h; exact h
  | cons w l ih =>
    intro st h
    exact ih _ (lcsInv_step S R st w h)

/-- After any number of loop iterations starting from the initial counters,
the counted total is bounded by both flattened text lengths. -/
theorem total_lcs_words_le (S R : List (List α)) (l : List (List α × ℕ)) :
    ((l.foldl lcsCountStep (initialLcsCountState S R)).total_lcs_words : ℤ) ≤
        ((flatten_sentences S).length : ℤ) ∧
      ((l.foldl lcsCountStep (initialLcsCountState S R)).total_lcs_words : ℤ) ≤
        ((flatten_sentences R).length : ℤ) := by
  obtain ⟨hs0, hr0, _, _, hssum, hrsum⟩ := lcsInv_foldl S R l _ (lcsInv_initial S R)
  constructor
  · have hsum : 0 ≤ ∑ t ∈ (flatten_sentences S).toFinset,
        (l.foldl lcsCountStep (initialLcsCountState S R)).summary_unigrams t :=
      Finset.sum_nonneg fun t _ => hs0 t
    omega
  · have hsum : 0 ≤ ∑ t ∈ (flatten_sentences R).toFinset,
        (l.foldl lcsCountStep (initialLcsCountState S R)).reference_unigrams t :=
      Finset.sum_nonneg fun t _ => hr0 t
    omega

/-! ### Facts about the weight function and the weighted LCS DP -/

theorem wpow_nonneg (w : ℝ) (k : ℕ) : 0 ≤ wpow w k :=
  Real.rpow_nonneg (Nat.cast_nonneg k) w

theorem wpow_zero {w : ℝ} (hw : w ≠ 0) : wpow w 0 = 0 := by
  unfold wpow
  rw [Nat.cast_zero, Real.zero_rpow hw]

theorem wpow_mono {w : ℝ} (hw : 0 ≤ w) {a b : ℕ} (h : a ≤ b) : wpow w a ≤ wpow w b :=
  Real.rpow_le_rpow (Nat.cast_nonneg a) (Nat.cast_le.2 h) hw

theorem wpow_pos {w : ℝ} {k : ℕ} (hk : 0 < k) : 0 < wpow w k :=
  Real.rpow_pos_of_pos (by exact_mod_cast hk) w

/-- `w(a) + w(b) ≤ w(a + b)` for the convex weight function (`w ≥ 1`): the
marginal credits of separate runs never exceed the weight of one long run. -/
theorem wpow_superadd {w : ℝ} (hw : 1 ≤ w) (a b : ℕ) :
    wpow w a + wpow w b ≤ wpow w (a + b) := by
  have h := NNReal.add_rpow_le_rpow_add (a : NNReal) (b : NNReal) hw
  have h2 := NNReal.coe_le_coe.2 h
  simp only [NNReal.coe_add, NNReal.coe_rpow, NNReal.coe_natCast] at h2
  unfold wpow
  push_cast
  exact h2

theorem wlcsTable_zero_left (x y : List α) (w : ℝ) (j : ℕ) :
    wlcsTable x y w 0 j = (0, 0) := rfl

theorem wlcsTable_succ_zero (x y : List α) (w : ℝ) (i : ℕ) :
    wlcsTable x y w (i + 1) 0 = (0, 0) := rfl

theorem wlcsTable_succ_succ (x y : List α) (w : ℝ) (i j : ℕ) :
    wlcsTable x y w (i + 1) (j + 1) =
      if x.get? i = y.get? j then
        ((wlcsTable x y w i j).1 +
            (wpow w ((wlcsTable x y w i j).2 + 1) - wpow w (wlcsTable x y w i j).2),
          (wlcsTable x y w i j).2 + 1)
      else
        (max (wlcsTable x y w i (j + 1)).1 (wlcsTable x y w (i + 1) j).1, 0) := rfl

/-- The invariant of the weighted LCS DP: the weighted length is non-negative,
the current run never exceeds either prefix length, and the weighted length is
at most `w(run) + w(min i j - run)` (the run still being extendable). -/
theorem wlcs_invariant (x y : List α) {w : ℝ} (hw : 1 ≤ w) :
    ∀ k i j, i + j ≤ k →
      0 ≤ (wlcsTable x y w i j).1 ∧
      (wlcsTable x y w i j).2 ≤ min i j ∧
      (wlcsTable x y w i j).1 ≤
        wpow w (wlcsTable x y w i j).2 +
          wpow w (min i j - (wlcsTable x y w i j).2) := by
  have hw0 : (0 : ℝ) ≤ w := le_trans zero_le_one hw
  have hwne : w ≠ 0 := ne_of_gt (lt_of_lt_of_le zero_lt_one hw)
  intro k
  induction k with
  | zero =>
    intro i j h
    have hi : i = 0 := by omega
    subst hi
    rw [wlcsTable_zero_left]
    exact ⟨le_refl _, Nat.zero_le _, add_nonneg (wpow_nonneg _ _) (wpow_nonneg _ _)⟩
  | succ k ih =>
    intro i j h
    match i, j with
    | 0, j =>
      rw [wlcsTable_zero_left]
      exact ⟨le_refl _, Nat.zero_le _, add_nonneg (wpow_nonneg _ _) (wpow_nonneg _ _)⟩
    | i + 1, 0 =>
      rw [wlcsTable_succ_zero]
      exact ⟨le_refl _, Nat.zero_le _, add_nonneg (wpow_nonneg _ _) (wpow_nonneg _ _)⟩
    | i + 1, j + 1 =>
      obtain ⟨d1, d2, d3⟩ := ih i j (by omega)
      obtain ⟨u1, u2, u3⟩ := ih i (j + 1) (by omega)
      obtain ⟨l1, l2, l3⟩ := ih (i + 1) j (by omega)
      rw [wlcsTable_succ_succ]
      by_cases hxy : x.get? i = y.get? j
      · rw [if_pos hxy]
        refine ⟨?_, ?_, ?_⟩
        · dsimp only
          have hm := wpow_mono hw0 (Nat.le_succ (wlcsTable x y w i j).2)
          linarith
        · dsimp only
          omega
        · dsimp only
          have heq : min (i + 1) (j + 1) - ((wlcsTable x y w i j).2 + 1) =
              min i j - (wlcsTable x y w i j).2 := by omega
          rw [heq]
          linarith
      · rw [if_neg hxy]
        have hup : (wlcsTable x y w i (j + 1)).1 ≤ wpow w (min (i + 1) (j + 1)) := by
          calc (wlcsTable x y w i (j + 1)).1
              ≤ wpow w (wlcsTable x y w i (j + 1)).2 +
                wpow w (min i (j + 1) - (wlcsTable x y w i (j + 1)).2) := u3
            _ ≤ wpow w ((wlcsTable x y w i (j + 1)).2 +
                (min i (j + 1) - (wlcsTable x y w i (j + 1)).2)) := wpow_superadd hw _ _
            _ = wpow w (min i (j + 1)) := by rw [Nat.add_sub_cancel' u2]
            _ ≤ wpow w (min (i + 1) (j + 1)) := wpow_mono hw0 (by omega)
        have hleft : (wlcsTable x y w (i + 1) j).1 ≤ wpow w (min (i + 1) (j + 1)) := by
          calc (wlcsTable x y w (i + 1) j).1
              ≤ wpow w (wlcsTable x y w (i + 1) j).2 +
                wpow w (min (i + 1) j - (wlcsTable x y w (i + 1) j).2) := l3
            _ ≤ wpow w ((wlcsTable x y w (i + 1) j).2 +
                (min (i + 1) j - (wlcsTable x y w (i + 1) j).2)) := wpow_superadd hw _ _
            _ = wpow w (min (i + 1) j) := by rw [Nat.add_sub_cancel' l2]
            _ ≤ wpow w (min (i + 1) (j + 1)) := wpow_mono hw0 (by omega)
        refine ⟨?_, Nat.zero_le _, ?_⟩
        · dsimp only
          exact le_trans u1 (le_max_left _ _)
        · dsimp only
          rw [wpow_zero hwne, Nat.sub_zero, zero_add]
          exact max_le hup hleft

/-- The weighted LCS value is bounded by the weight of either input length. -/
theorem wlcs_le_wpow_min (x y : List α) {w : ℝ} (hw : 1 ≤ w) (i j : ℕ) :
    0 ≤ (wlcsTable x y w i j).1 ∧
      (wlcsTable x y w i j).1 ≤ wpow w (min i j) := by
  have hw0 : (0 : ℝ) ≤ w := le_trans zero_le_one hw
  obtain ⟨h1, h2, h3⟩ := wlcs_invariant x y hw (i + j) i j (le_refl _)
  refine ⟨h1, ?_⟩
  calc (wlcsTable x y w i j).1
      ≤ wpow w (wlcsTable x y w i j).2 +
        wpow w (min i j - (wlcsTable x y w i j).2) := h3
    _ ≤ wpow w ((wlcsTable x y w i j).2 + (min i j - (wlcsTable x y w i j).2)) :=
        wpow_superadd hw _ _
    _ = wpow w (min i j) := by rw [Nat.add_sub_cancel' h2]

/-- On the diagonal of the self-comparison every cell is a match: the run is
the index and the weighted length telescopes to `w(i)` exactly. -/
theorem wlcsTable_self_diag (x : List α) {w : ℝ} (hw : w ≠ 0) :
    ∀ i, wlcsTable x x w i i = (wpow w i, i) := by
  intro i
  induction i with
  | zero =>
    rw [wlcsTable_zero_left, wpow_zero hw]
  | succ i ih =>
    rw [wlcsTable_succ_succ, if_pos rfl, ih]
    simp only [Prod.mk.injEq]
    exact ⟨by ring, trivial⟩

theorem divide_or_zero_real_nonneg {n d : ℝ} (hn : 0 ≤ n) (hd : 0 ≤ d) :
    0 ≤ divide_or_zero_real n d := by
  unfold divide_or_zero_real
  split_ifs with h
  · exact le_refl 0
  · exact div_nonneg hn hd

theorem divide_or_zero_real_le_one {n d : ℝ} (hn : 0 ≤ n) (hnd : n ≤ d) :
    divide_or_zero_real n d ≤ 1 := by
  unfold divide_or_zero_real
  split_ifs with h
  · norm_num
  · exact (div_le_one (lt_of_le_of_ne (le_trans hn hnd) (Ne.symm h))).2 hnd

theorem compute_f1_real_value_in_unit {r p a : ℝ} (hr0 : 0 ≤ r) (hr1 : r ≤ 1)
    (hp0 : 0 ≤ p) (hp1 : p ≤ 1) (ha0 : 0 ≤ a) (ha1 : a ≤ 1) :
    0 ≤ divide_or_zero_real (p * r) ((1 - a) * p + a * r) ∧
      divide_or_zero_real (p * r) ((1 - a) * p + a * r) ≤ 1 := by
  have key : p * r ≤ (1 - a) * p + a * r := by
    nlinarith [mul_nonneg (mul_nonneg (sub_nonneg.2 ha1) hp0) (sub_nonneg.2 hr1),
      mul_nonneg (mul_nonneg ha0 hr0) (sub_nonneg.2 hp1)]
  constructor
  · exact divide_or_zero_real_nonneg (by positivity) (by nlinarith)
  · exact divide_or_zero_real_le_one (by positivity) key

theorem compute_f1_measure_real_some_valid {a : ℝ} (recl precis : ℝ)
    (ha : 0 ≤ a ∧ a ≤ 1) :
    compute_f1_measure_real recl precis (some a) =
      .ok (divide_or_zero_real (precis * recl) ((1 - a) * precis + a * recl)) := by
  unfold compute_f1_measure_real
  simp [ha]

/-- The normalization `compute(n, d) = (n / w(d)) ** (1/w)` of
`rouge_w_sentence_level` maps a numerator in `[0, w(d)]` into `[0, 1]`. -/
theorem wcompute_in_unit {num w : ℝ} (hw : 1 < w) (d : ℕ)
    (h0 : 0 ≤ num) (hle : num ≤ wpow w d) :
    0 ≤ divide_or_zero_real num (wpow w d) ^ (1 / w) ∧
      divide_or_zero_real num (wpow w d) ^ (1 / w) ≤ 1 := by
  have hwpos : (0 : ℝ) < w := lt_trans zero_lt_one hw
  have hinv : (1 : ℝ) / w ≠ 0 := one_div_ne_zero (ne_of_gt hwpos)
  have hinv0 : (0 : ℝ) ≤ 1 / w := div_nonneg zero_le_one hwpos.le
  unfold divide_or_zero_real
  split_ifs with h
  · rw [Real.zero_rpow hinv]
    norm_num
  · have hd : 0 < wpow w d := lt_of_le_of_ne (wpow_nonneg _ _) (Ne.symm h)
    have hr0 : 0 ≤ num / wpow w d := div_nonneg h0 hd.le
    have hr1 : num / wpow w d ≤ 1 := (div_le_one hd).2 hle
    exact ⟨Real.rpow_nonneg hr0 _, Real.rpow_le_one hr0 hr1 hinv0⟩

/-! ### Claim theorems -/

/-- **C9**: for every pair of sequences `x` and `y`, the LCS length
computation is symmetric, `lcs_length x y = lcs_length y x`, and is bounded
above by the shorter input, `lcs_length x y ≤ min (len x) (len y)`. -/
theorem lcs_length_symm_and_le_min (x y : List α) :
    lcs_length x y = lcs_length y x ∧
      lcs_length x y ≤ min x.length y.length := by
  unfold lcs_length
  exact ⟨lcsTable_symm x y (x.length + y.length) x.length y.length (le_refl _),
    lcsTable_le_min x y (x.length + y.length) x.length y.length (le_refl _)⟩

/-- **C10**: for every non-empty token sequence `x` and every `alpha ∈ [0, 1]`,
`rouge_l_sentence_level x x alpha` returns the triple `(1, 1, 1)`. -/
theorem rouge_l_self_match_perfect (x : List α) (hx : x ≠ []) {a : ℚ}
    (ha : 0 ≤ a ∧ a ≤ 1) :
    rouge_l_sentence_level x x (some a) = .ok (1, 1, 1) := by
  have hlen : (0 : ℚ) < (x.length : ℚ) := by
    exact_mod_cast List.length_pos.2 hx
  have hdz : divide_or_zero (x.length : ℚ) (x.length : ℚ) = 1 := by
    unfold divide_or_zero
    rw [if_neg (ne_of_gt hlen), div_self (ne_of_gt hlen)]
  have hden : ((1 : ℚ) - a) * 1 + a * 1 = 1 := by ring
  have hone : divide_or_zero ((1 : ℚ) * 1) (((1 : ℚ) - a) * 1 + a * 1) = 1 := by
    rw [hden, one_mul]
    unfold divide_or_zero
    norm_num
  unfold rouge_l_sentence_level lcs_length f1_measure
  rw [lcsTable_diag]
  dsimp only
  rw [hdz, compute_f1_measure_some_valid _ _ ha, hone]
  rfl

/-- The LCS length of the concrete pair of C2. -/
theorem lcs_length_concrete_eq_three :
    lcs_length ["the", "gunman", "police", "killed"]
      ["the", "police", "killed", "the", "gunman"] = 3 := by decide

/-- The full concrete triple of C2 (default `alpha = 0.5`). -/
theorem rouge_l_concrete_triple :
    rouge_l_sentence_level ["the", "gunman", "police", "killed"]
        ["the", "police", "killed", "the", "gunman"] none =
      .ok (3 / 5, 3 / 4, 2 / 3) := by
  rw [rouge_l_sentence_level, lcs_length_concrete_eq_three]
  simp only [f1_measure, compute_f1_measure, divide_or_zero, List.length_cons,
    List.length_nil]
  norm_num
  rfl

/-- **C2** (counterexample): on the claimed concrete input the LCS length
computed by the DP is `3`, not `2`, and the returned recall and precision are
`3/5` and `3/4`, not the claimed `2/5 = 0.4` and `2/4 = 0.5`. -/
theorem rouge_l_concrete_claim_false :
    lcs_length ["the", "gunman", "police", "killed"]
        ["the", "police", "killed", "the", "gunman"] ≠ 2 ∧
      rouge_l_sentence_level ["the", "gunman", "police", "killed"]
          ["the", "police", "killed", "the", "gunman"] none =
        .ok (3 / 5, 3 / 4, 2 / 3) ∧
      ((3 : ℚ) / 5 ≠ 2 / 5 ∧ (3 : ℚ) / 4 ≠ 1 / 2) := by
  refine ⟨?_, rouge_l_concrete_triple, by norm_num⟩
  rw [lcs_length_concrete_eq_three]
  norm_num

/-- **C2** (amended): for the concrete input
`summary = [the, gunman, police, killed]`,
`reference = [the, police, killed, the, gunman]`, the LCS length computed by
`rouge_l_sentence_level` is `3` (the subsequence "the police killed"), so the
returned recall is `3/5 = 0.6` and the returned precision is `3/4 = 0.75`. -/
theorem rouge_l_concrete_scores :
    lcs_length ["the", "gunman", "police", "killed"]
        ["the", "police", "killed", "the", "gunman"] = 3 ∧
      rouge_l_sentence_level ["the", "gunman", "police", "killed"]
          ["the", "police", "killed", "the", "gunman"] none =
        .ok (3 / 5, 3 / 4, 2 / 3) :=
  ⟨lcs_length_concrete_eq_three, rouge_l_concrete_triple⟩

/-- **C3** (counterexample): at the cell `(1, 1)` for `x = [a]`, `y = [b]`
there is no token match and the up-neighbour value equals the left-neighbour
value, yet the recorded trace direction is `'l'`, not the claimed `'u'`. -/
theorem lcs_trace_tie_is_not_up :
    (¬ (["a"] : List String).get? 0 = (["b"] : List String).get? 0) ∧
      lcsTable ["a"] ["b"] 0 1 = lcsTable ["a"] ["b"] 1 0 ∧
      traceTable ["a"] ["b"] 1 1 = some 'l' ∧
      traceTable ["a"] ["b"] 1 1 ≠ some 'u' := by decide

/-- **C3** (amended): in the LCS backtrace trace table, whenever a cell is not
a token match and the value from the up-neighbour equals the value from the
left-neighbour, the recorded trace direction is `'l'` — the left branch is
preferred on ties (`'u'` is recorded only when the up value is strictly
larger). -/
theorem lcs_trace_tie_prefers_left (x y : List α) (i j : ℕ)
    (hne : ¬ x.get? i = y.get? j)
    (htie : lcsTable x y i (j + 1) = lcsTable x y (i + 1) j) :
    traceTable x y (i + 1) (j + 1) = some 'l' := by
  have e : traceTable x y (i + 1) (j + 1) =
      if x.get? i = y.get? j then some 'd'
      else if lcsTable x y i (j + 1) > lcsTable x y (i + 1) j then some 'u'
      else some 'l' := rfl
  rw [e, if_neg hne, if_neg (by omega)]

/-- Witness for the amended C3 at the concrete tie cell of the
counterexample. -/
theorem lcs_trace_tie_prefers_left_witness :
    (¬ (["a"] : List String).get? 0 = (["b"] : List String).get? 0) ∧
      lcsTable ["a"] ["b"] 0 1 = lcsTable ["a"] ["b"] 1 0 ∧
      traceTable ["a"] ["b"] 1 1 = some 'l' :=
  ⟨by decide, by decide,
    lcs_trace_tie_prefers_left ["a"] ["b"] 0 0 (by decide) (by decide)⟩

/-- **C7**: for every list of summary sentences, every list of reference
sentences, every `n ≥ 1` and every `alpha ∈ [0, 1]`, summary-level ROUGE-N
equals sentence-level ROUGE-N on the flattened (boundary-dropping,
order-preserving) token sequences. -/
theorem rouge_n_summary_eq_flattened (S R : List (List α)) (n : ℕ) (hn : 1 ≤ n)
    {a : ℚ} (ha : 0 ≤ a ∧ a ≤ 1) :
    rouge_n_summary_level S R n (some a) =
      rouge_n_sentence_level (flatten_sentences S) (flatten_sentences R) n (some a) :=
  rfl

/-- Witness for C7 at a concrete two-sentence summary. -/
theorem rouge_n_summary_eq_flattened_witness :
    (1 ≤ 1) ∧ ((0 : ℚ) ≤ 1 / 2 ∧ (1 : ℚ) / 2 ≤ 1) ∧
      rouge_n_summary_level [["a"], ["b", "a"]] [["a", "b"]] 1 (some (1 / 2)) =
        rouge_n_sentence_level (flatten_sentences [["a"], ["b", "a"]])
          (flatten_sentences [["a", "b"]]) 1 (some (1 / 2)) :=
  ⟨le_refl 1, by norm_num,
    rouge_n_summary_eq_flattened [["a"], ["b", "a"]] [["a", "b"]] 1 (le_refl 1)
      (by norm_num)⟩

/-- Witness for C10 at a concrete one-token sentence. -/
theorem rouge_l_self_match_perfect_witness :
    ((["a"] : List String) ≠ []) ∧ ((0 : ℚ) ≤ 1 / 2 ∧ (1 : ℚ) / 2 ≤ 1) ∧
      rouge_l_sentence_level ["a"] ["a"] (some (1 / 2)) = .ok (1, 1, 1) :=
  ⟨by decide, by norm_num,
    rouge_l_self_match_perfect ["a"] (by decide) (by norm_num)⟩

/-- **C8**: during every execution of `rouge_l_summary_level` (i.e. after any
prefix of its counting loop, whose iterations form `lcsWorkList`), the counts
in the global summary-unigram and reference-unigram multisets remain
non-negative; moreover a single loop step changes a unigram's counts only
when both its counts were strictly positive, so no count ever drops below
zero. -/
theorem rouge_l_summary_counts_nonneg (S R : List (List α))
    (pre suf : List (List α × ℕ)) (hsplit : lcsWorkList S R = pre ++ suf)
    (t : α) (st : LcsCountState α) (w : List α × ℕ) :
    (0 ≤ (pre.foldl lcsCountStep (initialLcsCountState S R)).summary_unigrams t ∧
      0 ≤ (pre.foldl lcsCountStep (initialLcsCountState S R)).reference_unigrams t) ∧
    (((lcsCountStep st w).summary_unigrams t ≠ st.summary_unigrams t ∨
        (lcsCountStep st w).reference_unigrams t ≠ st.reference_unigrams t) →
      0 < st.summary_unigrams t ∧ 0 < st.reference_unigrams t) := by
  constructor
  · obtain ⟨hs0, hr0, _, _, _, _⟩ := lcsInv_foldl S R pre _ (lcsInv_initial S R)
    exact ⟨hs0 t, hr0 t⟩
  · intro hch
    unfold lcsCountStep at hch
    cases hget : w.1.get? w.2 with
    | none =>
      rw [hget] at hch
      simp at hch
    | some u =>
      rw [hget] at hch
      dsimp only at hch
      by_cases hguard : 0 < st.summary_unigrams u ∧ 0 < st.reference_unigrams u
      · rw [if_pos hguard] at hch
        by_cases ht : t = u
        · rw [ht]
          exact hguard
        · simp [ht] at hch
      · rw [if_neg hguard] at hch
        simp at hch

/-- Witness for C8 on a one-word summary and reference, after the single loop
step of the actual work list. -/
theorem rouge_l_summary_counts_nonneg_witness :
    lcsWorkList [["a"]] [["a"]] = [((["a"] : List String), 0)] ++ [] ∧
      ((0 ≤ ([((["a"] : List String), 0)].foldl lcsCountStep
            (initialLcsCountState [["a"]] [["a"]])).summary_unigrams "a" ∧
        0 ≤ ([((["a"] : List String), 0)].foldl lcsCountStep
            (initialLcsCountState [["a"]] [["a"]])).reference_unigrams "a") ∧
      (((lcsCountStep (initialLcsCountState [["a"]] [["a"]]) (["a"], 0)).summary_unigrams "a" ≠
            (initialLcsCountState [["a"]] [["a"]]).summary_unigrams "a" ∨
          (lcsCountStep (initialLcsCountState [["a"]] [["a"]]) (["a"], 0)).reference_unigrams "a" ≠
            (initialLcsCountState [["a"]] [["a"]]).reference_unigrams "a") →
        0 < (initialLcsCountState [["a"]] [["a"]]).summary_unigrams "a" ∧
          0 < (initialLcsCountState [["a"]] [["a"]]).reference_unigrams "a")) :=
  ⟨by decide,
    rouge_l_summary_counts_nonneg [["a"]] [["a"]] [(["a"], 0)] [] (by decide) "a"
      (initialLcsCountState [["a"]] [["a"]]) (["a"], 0)⟩

theorem rouge_n_sentence_in_unit (s r : List α) (n : ℕ) {a : ℚ}
    (ha : 0 ≤ a ∧ a ≤ 1) :
    triple_in_unit (rouge_n_sentence_level s r n (some a)) := by
  unfold rouge_n_sentence_level
  dsimp only
  apply f1_measure_in_unit ha
  · exact_mod_cast Nat.zero_le _
  · have h := clipped_ngram_count_le_right (count_ngrams s n) (count_ngrams r n)
    rw [count_ngrams_length] at h
    exact_mod_cast h
  · have h := clipped_ngram_count_le_left (count_ngrams s n) (count_ngrams r n)
    rw [count_ngrams_length] at h
    exact_mod_cast h

theorem rouge_l_sentence_in_unit (s r : List α) {a : ℚ} (ha : 0 ≤ a ∧ a ≤ 1) :
    triple_in_unit (rouge_l_sentence_level s r (some a)) := by
  have hmin := lcsTable_le_min s r (s.length + r.length) s.length r.length (le_refl _)
  unfold rouge_l_sentence_level
  apply f1_measure_in_unit ha
  · exact_mod_cast Nat.zero_le _
  · have h : lcs_length s r ≤ r.length := le_trans hmin (min_le_right _ _)
    exact_mod_cast h
  · have h : lcs_length s r ≤ s.length := le_trans hmin (min_le_left _ _)
    exact_mod_cast h

theorem rouge_l_summary_in_unit (S R : List (List α)) {a : ℚ}
    (ha : 0 ≤ a ∧ a ≤ 1) :
    triple_in_unit (rouge_l_summary_level S R (some a)) := by
  obtain ⟨hS, hR⟩ := total_lcs_words_le S R (lcsWorkList S R)
  have hlenS : ((flatten_sentences S).length : ℤ) = ((S.map List.length).sum : ℤ) := by
    unfold flatten_sentences
    exact_mod_cast List.length_flatten S
  have hlenR : ((flatten_sentences R).length : ℤ) = ((R.map List.length).sum : ℤ) := by
    unfold flatten_sentences
    exact_mod_cast List.length_flatten R
  rw [hlenS] at hS
  rw [hlenR] at hR
  unfold rouge_l_summary_level
  dsimp only
  apply f1_measure_in_unit ha
  · exact_mod_cast Nat.zero_le _
  · exact_mod_cast hR
  · exact_mod_cast hS

theorem rouge_w_sentence_in_unit (s r : List α) {wv b : ℝ} (hw : 1 < wv)
    (hb : 0 ≤ b ∧ b ≤ 1) :
    triple_in_unit_real (rouge_w_sentence_level s r (some wv) (some b)) := by
  have hw1 : (1 : ℝ) ≤ wv := hw.le
  have hw0 : (0 : ℝ) ≤ wv := le_trans zero_le_one hw1
  intro recl precis f1 h
  unfold rouge_w_sentence_level at h
  rw [Option.getD_some, if_pos hw] at h
  dsimp only at h
  rw [compute_f1_measure_real_some_valid _ _ hb] at h
  simp only [Except.map, Except.ok.injEq, Prod.mk.injEq] at h
  obtain ⟨h1, h2, h3⟩ := h
  have hn0 : 0 ≤ lcs_length_with_weight s r wv :=
    (wlcs_le_wpow_min s r hw1 s.length r.length).1
  have hnle : lcs_length_with_weight s r wv ≤ wpow wv (min s.length r.length) :=
    (wlcs_le_wpow_min s r hw1 s.length r.length).2
  have hnler : lcs_length_with_weight s r wv ≤ wpow wv r.length :=
    le_trans hnle (wpow_mono hw0 (min_le_right _ _))
  have hnles : lcs_length_with_weight s r wv ≤ wpow wv s.length :=
    le_trans hnle (wpow_mono hw0 (min_le_left _ _))
  have hrecl := wcompute_in_unit hw r.length hn0 hnler
  have hprec := wcompute_in_unit hw s.length hn0 hnles
  rw [h1] at hrecl
  rw [h2] at hprec
  subst h1
  subst h2
  subst h3
  refine ⟨hrecl, hprec, ?_⟩
  exact compute_f1_real_value_in_unit hrecl.1 hrecl.2 hprec.1 hprec.2 hb.1 hb.2

/-- **C4**: for every input with `n ≥ 1`, `alpha ∈ [0, 1]` and weight power
`> 1.0`, each component (recall, precision, f1) of the triple returned by
`rouge_n_sentence_level`, `rouge_l_sentence_level`, `rouge_w_sentence_level`,
`rouge_n_summary_level` and `rouge_l_summary_level` lies in `[0, 1]`; in
particular the ROUGE-W inverse-weighting normalization keeps its recall and
precision in `[0, 1]` for every weight power `> 1.0`. -/
theorem rouge_scores_in_unit_interval (s r : List α) (S R : List (List α))
    (n : ℕ) (hn : 1 ≤ n) {a : ℚ} (ha : 0 ≤ a ∧ a ≤ 1) {b wv : ℝ}
    (hb : 0 ≤ b ∧ b ≤ 1) (hw : 1 < wv) :
    triple_in_unit (rouge_n_sentence_level s r n (some a)) ∧
      triple_in_unit (rouge_l_sentence_level s r (some a)) ∧
      triple_in_unit_real (rouge_w_sentence_level s r (some wv) (some b)) ∧
      triple_in_unit (rouge_n_summary_level S R n (some a)) ∧
      triple_in_unit (rouge_l_summary_level S R (some a)) :=
  ⟨rouge_n_sentence_in_unit s r n ha, rouge_l_sentence_in_unit s r ha,
    rouge_w_sentence_in_unit s r hw hb,
    rouge_n_sentence_in_unit (flatten_sentences S) (flatten_sentences R) n ha,
    rouge_l_summary_in_unit S R ha⟩

/-- Witness for C4 at concrete sentences with `n = 1`, `alpha = 1/2`,
weight `2`. -/
theorem rouge_scores_in_unit_interval_witness :
    (1 ≤ 1) ∧ ((0 : ℚ) ≤ 1 / 2 ∧ (1 : ℚ) / 2 ≤ 1) ∧
      ((0 : ℝ) ≤ 1 / 2 ∧ (1 : ℝ) / 2 ≤ 1) ∧ ((1 : ℝ) < 2) ∧
      (triple_in_unit (rouge_n_sentence_level ["a"] ["b", "a"] 1 (some (1 / 2))) ∧
        triple_in_unit (rouge_l_sentence_level ["a"] ["b", "a"] (some (1 / 2))) ∧
        triple_in_unit_real (rouge_w_sentence_level ["a"] ["b", "a"] (some 2) (some (1 / 2))) ∧
        triple_in_unit (rouge_n_summary_level [["a"]] [["b", "a"]] 1 (some (1 / 2))) ∧
        triple_in_unit (rouge_l_summary_level [["a"]] [["b", "a"]] (some (1 / 2)))) :=
  ⟨le_refl 1, by norm_num, by norm_num, by norm_num,
    rouge_scores_in_unit_interval ["a"] ["b", "a"] [["a"]] [["b", "a"]] 1
      (le_refl 1) (by norm_num) (by norm_num) (by norm_num)⟩

/-- **C6**: for every non-empty sequence `x` of length `k` and every weight
power `> 1.0`, `rouge_w_sentence_level x x` computes a weighted LCS numerator
exactly equal to `w(k) = k ** weight`, and returns recall and precision
exactly `1.0` (and hence f1 `1.0`). -/
theorem rouge_w_self_match_exact (x : List α) (hx : x ≠ []) {wv b : ℝ}
    (hw : 1 < wv) (hb : 0 ≤ b ∧ b ≤ 1) :
    lcs_length_with_weight x x wv = wpow wv x.length ∧
      rouge_w_sentence_level x x (some wv) (some b) = .ok (1, 1, 1) := by
  have hwne : wv ≠ 0 := ne_of_gt (lt_trans zero_lt_one hw)
  have hdiag := wlcsTable_self_diag x hwne x.length
  have hnum : lcs_length_with_weight x x wv = wpow wv x.length := by
    unfold lcs_length_with_weight
    rw [hdiag]
  refine ⟨hnum, ?_⟩
  have hpos : 0 < wpow wv x.length := wpow_pos (List.length_pos.2 hx)
  have hdz : divide_or_zero_real (wpow wv x.length) (wpow wv x.length) = 1 := by
    unfold divide_or_zero_real
    rw [if_neg (ne_of_gt hpos), div_self (ne_of_gt hpos)]
  have hone : divide_or_zero_real ((1 : ℝ) * 1) (((1 : ℝ) - b) * 1 + b * 1) = 1 := by
    have hden : ((1 : ℝ) - b) * 1 + b * 1 = 1 := by ring
    rw [hden, one_mul]
    unfold divide_or_zero_real
    norm_num
  unfold rouge_w_sentence_level
  rw [Option.getD_some, if_pos hw]
  dsimp only
  rw [hnum, hdz, Real.one_rpow, compute_f1_measure_real_some_valid _ _ hb, hone]
  rfl

/-- Witness for C6 at `x = [a]`, weight `2`, `alpha = 1/2`. -/
theorem rouge_w_self_match_exact_witness :
    ((["a"] : List String) ≠ []) ∧ ((1 : ℝ) < 2) ∧
      ((0 : ℝ) ≤ 1 / 2 ∧ (1 : ℝ) / 2 ≤ 1) ∧
      (lcs_length_with_weight ["a"] ["a"] 2 = wpow 2 (["a"] : List String).length ∧
        rouge_w_sentence_level ["a"] ["a"] (some 2) (some (1 / 2)) = .ok (1, 1, 1)) :=
  ⟨by decide, by norm_num, by norm_num,
    rouge_w_self_match_exact ["a"] (by decide) (by norm_num) (by norm_num)⟩

/-- `rouge_w_sentence_level` raises exactly when the weight or the alpha is
invalid (the weight check fires first). -/
theorem rouge_w_sentence_raises_iff (s r : List α) (wv av : ℝ) :
    raises (rouge_w_sentence_level s r (some wv) (some av)) ↔
      (¬ 1 < wv ∨ ¬ (0 ≤ av ∧ av ≤ 1)) := by
  unfold rouge_w_sentence_level
  rw [Option.getD_some]
  by_cases h1 : 1 < wv
  · rw [if_pos h1]
    dsimp only
    unfold compute_f1_measure_real
    rw [Option.getD_some]
    by_cases h2 : 0 ≤ av ∧ av ≤ 1
    · rw [if_pos h2]
      simp [raises, Except.map, h1, h2]
    · rw [if_neg h2]
      simp [raises, Except.map, h1, h2]
  · rw [if_neg h1]
    simp [raises, h1]

/-- `_f1_measure` with all-zero statistics and a valid alpha returns the zero
triple (both divisions are zero-safe). -/
theorem f1_measure_zero {a : ℚ} (ha : 0 ≤ a ∧ a ≤ 1) :
    f1_measure 0 0 0 (some a) = .ok (0, 0, 0) := by
  have hdz : divide_or_zero 0 0 = 0 := by
    unfold divide_or_zero
    simp
  have hz : divide_or_zero (0 * 0) ((1 - a) * 0 + a * 0) = 0 := by
    have hd : ((1 : ℚ) - a) * 0 + a * 0 = 0 := by ring
    rw [hd, zero_mul]
    exact hdz
  unfold f1_measure
  dsimp only
  rw [hdz, compute_f1_measure_some_valid _ _ ha, hz]
  rfl

theorem rouge_n_sentence_empty (n : ℕ) (hn : 1 ≤ n) {a : ℚ} (ha : 0 ≤ a ∧ a ≤ 1) :
    rouge_n_sentence_level ([] : List α) [] n (some a) = .ok (0, 0, 0) := by
  have h0 : num_ngrams ([] : List α) n = 0 := by
    unfold num_ngrams
    simp only [List.length_nil]
    omega
  have e : rouge_n_sentence_level ([] : List α) [] n (some a) =
      f1_measure 0 0 0 (some a) := by
    unfold rouge_n_sentence_level count_ngrams get_ngram clipped_ngram_count
    rw [h0]
    norm_num
  rw [e, f1_measure_zero ha]

theorem rouge_l_sentence_empty {a : ℚ} (ha : 0 ≤ a ∧ a ≤ 1) :
    rouge_l_sentence_level ([] : List α) [] (some a) = .ok (0, 0, 0) := by
  have e : lcs_length ([] : List α) [] = 0 := rfl
  unfold rouge_l_sentence_level
  rw [e]
  simp only [List.length_nil, Nat.cast_zero]
  exact f1_measure_zero ha

theorem rouge_n_summary_empty (n : ℕ) (hn : 1 ≤ n) {a : ℚ} (ha : 0 ≤ a ∧ a ≤ 1) :
    rouge_n_summary_level ([] : List (List α)) [] n (some a) = .ok (0, 0, 0) :=
  rouge_n_sentence_empty n hn ha

theorem rouge_l_summary_empty {a : ℚ} (ha : 0 ≤ a ∧ a ≤ 1) :
    rouge_l_summary_level ([] : List (List α)) [] (some a) = .ok (0, 0, 0) := by
  have e : lcsWorkList ([] : List (List α)) [] = [] := rfl
  unfold rouge_l_summary_level
  rw [e]
  simp only [List.foldl_nil, List.map_nil, List.sum_nil, Nat.cast_zero]
  exact f1_measure_zero ha

theorem rouge_w_sentence_empty {wv b : ℝ} (hw : 1 < wv) (hb : 0 ≤ b ∧ b ≤ 1) :
    rouge_w_sentence_level ([] : List α) [] (some wv) (some b) = .ok (0, 0, 0) := by
  have hwne : wv ≠ 0 := ne_of_gt (lt_trans zero_lt_one hw)
  have hinvne : (1 : ℝ) / wv ≠ 0 := one_div_ne_zero hwne
  have hnum : lcs_length_with_weight ([] : List α) [] wv = 0 := rfl
  have hdzr : divide_or_zero_real 0 0 = 0 := by
    unfold divide_or_zero_real
    simp
  have hcomp : divide_or_zero_real 0 (wpow wv (List.length ([] : List α))) ^ ((1 : ℝ) / wv) = 0 := by
    have hwz : wpow wv (List.length ([] : List α)) = 0 := wpow_zero hwne
    rw [hwz, hdzr, Real.zero_rpow hinvne]
  have hz : divide_or_zero_real (0 * 0) ((1 - b) * 0 + b * 0) = 0 := by
    have hd : ((1 : ℝ) - b) * 0 + b * 0 = 0 := by ring
    rw [hd, zero_mul]
    exact hdzr
  unfold rouge_w_sentence_level
  rw [Option.getD_some, if_pos hw]
  dsimp only
  rw [hnum, hcomp, compute_f1_measure_real_some_valid _ _ hb, hz]
  rfl

/-- **C5** (counterexample): `rouge_w_summary_level` is a scoring routine of
the module, yet called with weight `1/2 ≤ 1.0` and `alpha = 2 ∉ [0, 1]` it
raises nothing and returns `None` — and on empty sentences with any
parameters it returns `None`, not a zero triple. -/
theorem rouge_w_summary_never_raises_concrete :
    rouge_w_summary_level ([["a"]] : List (List String)) [["a"]]
        (some (1 / 2)) (some 2) = none ∧
      (rouge_w_summary_level ([["a"]] : List (List String)) [["a"]]
        (some (1 / 2)) (some 2)).isSome = false ∧
      rouge_w_summary_level ([([] : List String)]) [[]]
        (some 2) (some (1 / 2)) = none :=
  ⟨rfl, rfl, rfl⟩

/-- **C5** (amended): every *implemented* scoring routine
(`rouge_n_sentence_level`, `rouge_l_sentence_level`, `rouge_n_summary_level`,
`rouge_l_summary_level`, `rouge_w_sentence_level`) raises `InvalidArgument`
exactly when `alpha ∉ [0, 1]` or — for ROUGE-W — the weight power is
`≤ 1.0`; on inputs whose sentences are empty sequences with valid parameters,
each returns `(0.0, 0.0, 0.0)` via zero-safe division instead of raising.
The unimplemented stub `rouge_w_summary_level` never raises and returns
`None` for every input. -/
theorem rouge_error_semantics (n : ℕ) (hn : 1 ≤ n) {a : ℚ} (ha : 0 ≤ a ∧ a ≤ 1)
    {b wv : ℝ} (hb : 0 ≤ b ∧ b ≤ 1) (hw : 1 < wv) :
    (∀ (s r : List α) (m : ℕ) (g : ℚ),
        raises (rouge_n_sentence_level s r m (some g)) ↔ ¬ (0 ≤ g ∧ g ≤ 1)) ∧
      (∀ (s r : List α) (g : ℚ),
        raises (rouge_l_sentence_level s r (some g)) ↔ ¬ (0 ≤ g ∧ g ≤ 1)) ∧
      (∀ (S R : List (List α)) (m : ℕ) (g : ℚ),
        raises (rouge_n_summary_level S R m (some g)) ↔ ¬ (0 ≤ g ∧ g ≤ 1)) ∧
      (∀ (S R : List (List α)) (g : ℚ),
        raises (rouge_l_summary_level S R (some g)) ↔ ¬ (0 ≤ g ∧ g ≤ 1)) ∧
      (∀ (s r : List α) (wg ag : ℝ),
        raises (rouge_w_sentence_level s r (some wg) (some ag)) ↔
          (¬ 1 < wg ∨ ¬ (0 ≤ ag ∧ ag ≤ 1))) ∧
      (∀ (S R : List (List α)) (wg ag : Option ℝ),
        rouge_w_summary_level S R wg ag = none) ∧
      rouge_n_sentence_level ([] : List α) [] n (some a) = .ok (0, 0, 0) ∧
      rouge_l_sentence_level ([] : List α) [] (some a) = .ok (0, 0, 0) ∧
      rouge_n_summary_level ([] : List (List α)) [] n (some a) = .ok (0, 0, 0) ∧
      rouge_l_summary_level ([] : List (List α)) [] (some a) = .ok (0, 0, 0) ∧
      rouge_w_sentence_level ([] : List α) [] (some wv) (some b) = .ok (0, 0, 0) := by
  refine ⟨fun s r m g => f1_measure_raises_iff _ _ _ g,
    fun s r g => f1_measure_raises_iff _ _ _ g,
    fun S R m g => f1_measure_raises_iff _ _ _ g,
    fun S R g => f1_measure_raises_iff _ _ _ g,
    fun s r wg ag => rouge_w_sentence_raises_iff s r wg ag,
    fun S R wg ag => rfl,
    rouge_n_sentence_empty n hn ha, rouge_l_sentence_empty ha,
    rouge_n_summary_empty n hn ha, rouge_l_summary_empty ha,
    rouge_w_sentence_empty hw hb⟩

/-- Witness for the amended C5 at `n = 1`, `alpha = 1/2`, weight `2`,
tokens being strings. -/
theorem rouge_error_semantics_witness :
    (1 ≤ 1) ∧ ((0 : ℚ) ≤ 1 / 2 ∧ (1 : ℚ) / 2 ≤ 1) ∧
      ((0 : ℝ) ≤ 1 / 2 ∧ (1 : ℝ) / 2 ≤ 1) ∧ ((1 : ℝ) < 2) ∧
      ((∀ (s r : List String) (m : ℕ) (g : ℚ),
          raises (rouge_n_sentence_level s r m (some g)) ↔ ¬ (0 ≤ g ∧ g ≤ 1)) ∧
        (∀ (s r : List String) (g : ℚ),
          raises (rouge_l_sentence_level s r (some g)) ↔ ¬ (0 ≤ g ∧ g ≤ 1)) ∧
        (∀ (S R : List (List String)) (m : ℕ) (g : ℚ),
          raises (rouge_n_summary_level S R m (some g)) ↔ ¬ (0 ≤ g ∧ g ≤ 1)) ∧
        (∀ (S R : List (List String)) (g : ℚ),
          raises (rouge_l_summary_level S R (some g)) ↔ ¬ (0 ≤ g ∧ g ≤ 1)) ∧
        (∀ (s r : List String) (wg ag : ℝ),
          raises (rouge_w_sentence_level s r (some wg) (some ag)) ↔
            (¬ 1 < wg ∨ ¬ (0 ≤ ag ∧ ag ≤ 1))) ∧
        (∀ (S R : List (List String)) (wg ag : Option ℝ),
          rouge_w_summary_level S R wg ag = none) ∧
        rouge_n_sentence_level ([] : List String) [] 1 (some (1 / 2)) = .ok (0, 0, 0) ∧
        rouge_l_sentence_level ([] : List String) [] (some (1 / 2)) = .ok (0, 0, 0) ∧
        rouge_n_summary_level ([] : List (List String)) [] 1 (some (1 / 2)) = .ok (0, 0, 0) ∧
        rouge_l_summary_level ([] : List (List String)) [] (some (1 / 2)) = .ok (0, 0, 0) ∧
        rouge_w_sentence_level ([] : List String) [] (some 2) (some (1 / 2)) = .ok (0, 0, 0)) :=
  ⟨le_refl 1, by norm_num, by norm_num, by norm_num,
    rouge_error_semantics (α := String) 1 (le_refl 1) (by norm_num) (by norm_num)
      (by norm_num)⟩

/-- **C1** (counterexample): called with a list of summary sentences, a list
of reference sentences, weight `2 > 1.0` and `alpha = 1/2 ∈ [0, 1]`, the
public `rouge_w_summary_level` returns `None` — not a
`(recall, precision, f1)` score triple. -/
theorem rouge_w_summary_no_triple_concrete :
    rouge_w_summary_level ([["a"]] : List (List String)) [["the", "a"]]
        (some 2) (some (1 / 2)) = none ∧
      (rouge_w_summary_level ([["a"]] : List (List String)) [["the", "a"]]
        (some 2) (some (1 / 2))).isSome = false :=
  ⟨rfl, rfl⟩

/-- **C1** (amended): `rouge_w_summary_level` is an unimplemented stub — its
body is `pass` — so for every input (any summaries, references, weight and
alpha) it returns `None` and never a `(recall, precision, f1)` triple. -/
theorem rouge_w_summary_returns_none (S R : List (List α)) (wg ag : Option ℝ) :
    rouge_w_summary_level S R wg ag = none := rfl

end Rouge
